import Mathlib

/-!
Verification development for the seedlib URL library (src/url.cpp, src/url_impl.hpp,
include/seedlib/url.hpp).

C++ byte strings are modelled as lists of characters.  The two std::regex patterns
(url_regex and authority_regex, both ECMAScript) are embedded as deterministic
functional matchers that realise the leftmost-greedy backtracking semantics of those
two concrete patterns; the URLImpl constructor, the accessors, the mutators,
to_string, validate and decode_uri_component are translated clause by clause.
-/

namespace Seedlib

abbrev Str := List Char

/-- Convert a Lean string literal to the byte-string model. -/
def str (s : String) : Str := s.toList

/-- The C tolower applied by std::transform in the constructor and in set_scheme:
ASCII upper-case letters are shifted by 32, everything else is unchanged. -/
def tolower (c : Char) : Char :=
  if 65 ≤ c.toNat ∧ c.toNat ≤ 90 then Char.ofNat (c.toNat + 32) else c

def lowerStr (s : Str) : Str := s.map tolower

/-- Decimal digit test, as the regex class matching a digit does for bytes. -/
def isDigitChar (c : Char) : Bool := 48 ≤ c.toNat && c.toNat ≤ 57

/-- Characters that terminate the scheme capture, the negated class of colon,
slash, question mark and hash in url_regex. -/
def isTopSpecial (c : Char) : Bool := c = ':' || c = '/' || c = '?' || c = '#'

/-- Characters that terminate the authority capture in url_regex: slash,
question mark, hash. -/
def isAuthStop (c : Char) : Bool := c = '/' || c = '?' || c = '#'

/-- Characters that terminate the path capture in url_regex: question mark, hash. -/
def isPathStop (c : Char) : Bool := c = '?' || c = '#'

/-- ECMAScript line terminators relevant to byte strings; the dot in url_regex
does not match them. -/
def isLineTerm (c : Char) : Bool := c = '\n' || c = '\r'

/-- Result of a successful match of url_regex: captures 2 (scheme), 4 (authority),
5 (path), 7 (query) and 9 (fragment); an unmatched capture reads back as empty. -/
structure TopMatch where
  scheme : Str
  authority : Str
  path : Str
  query : Str
  fragment : Str
deriving DecidableEq

/-- The optional scheme group of url_regex: a nonempty run of characters outside
the colon-slash-question-hash class followed by a literal colon.  The group
participates exactly when the first special character of the input is a colon at
position at least one. -/
def schemeSplit (s : Str) : Str × Str :=
  match s.dropWhile (fun c => !isTopSpecial c) with
  | c :: rest =>
      if c = ':' ∧ s.takeWhile (fun c => !isTopSpecial c) ≠ [] then
        (s.takeWhile (fun c => !isTopSpecial c), rest)
      else ([], s)
  | [] => ([], s)

/-- The optional authority group of url_regex: two literal slashes followed by a
greedy, possibly empty run outside the slash-question-hash class; absent when
the remainder does not start with two slashes. -/
def authoritySplit (r1 : Str) : Str × Str :=
  match r1 with
  | '/' :: '/' :: rest =>
      (rest.takeWhile (fun c => !isAuthStop c), rest.dropWhile (fun c => !isAuthStop c))
  | _ => ([], r1)

/-- The path capture of url_regex: a greedy, possibly empty run outside the
question-hash class. -/
def pathSplit (r2 : Str) : Str × Str :=
  (r2.takeWhile (fun c => !isPathStop c), r2.dropWhile (fun c => !isPathStop c))

/-- The optional query group of url_regex: a question mark followed by a greedy
run of non-hash characters. -/
def querySplit (r3 : Str) : Str × Str :=
  match r3 with
  | '?' :: rest => (rest.takeWhile (fun c => c ≠ '#'), rest.dropWhile (fun c => c ≠ '#'))
  | _ => ([], r3)

/-- The optional fragment group of url_regex plus the end anchor of regex_match:
the dot cannot cross a line terminator, so a fragment holding a newline or a
carriage return makes the whole match fail. -/
def fragmentFinish (scheme authority path query r4 : Str) : Option TopMatch :=
  match r4 with
  | [] => some ⟨scheme, authority, path, query, []⟩
  | '#' :: f => if f.any isLineTerm then none else some ⟨scheme, authority, path, query, f⟩
  | _ => none

/-- Functional model of regex_match against url_regex.  The only way the whole
match can fail is the fragment stage; every other part of the pattern is made of
optional groups and possibly-empty negated-class runs, and the greedy splits are
forced because overall success depends only on the suffix after the first hash,
which no earlier group can consume. -/
def parseTopLevel (s : Str) : Option TopMatch :=
  fragmentFinish (schemeSplit s).1 (authoritySplit (schemeSplit s).2).1
    (pathSplit (authoritySplit (schemeSplit s).2).2).1
    (querySplit (pathSplit (authoritySplit (schemeSplit s).2).2).2).1
    (querySplit (pathSplit (authoritySplit (schemeSplit s).2).2).2).2

/-- The optional port tail of authority_regex: either nothing, or a colon
followed by one to five digits reaching the end of the authority. -/
def portOpt (z : Str) : Option Str :=
  match z with
  | [] => some []
  | c :: d => if c = ':' ∧ d ≠ [] ∧ d.length ≤ 5 ∧ d.all isDigitChar then some d else none

/-- The second host alternative of authority_regex: a nonempty run of non-colon
characters, then the optional port tail. -/
def hostAlt2 (r : Str) : Option (Str × Str) :=
  if r.takeWhile (fun c => c ≠ ':') = [] then none
  else
    match portOpt (r.dropWhile (fun c => c ≠ ':')) with
    | some p => some (r.takeWhile (fun c => c ≠ ':'), p)
    | none => none

/-- The host-and-port suffix of authority_regex.  The first (bracket) host
alternative, read with ECMAScript class rules, is an open bracket, one arbitrary
character, one or more closing brackets and one more closing bracket; it is tried
first and, because shorter bracket runs leave a stray closing bracket in front of
the port tail, only the greedy split can succeed.  On any failure the engine
falls back to the nonempty non-colon run. -/
def hostPort (r : Str) : Option (Str × Str) :=
  match r with
  | '[' :: c :: rest =>
      if 2 ≤ (rest.takeWhile (fun x => x = ']')).length then
        match portOpt (rest.dropWhile (fun x => x = ']')) with
        | some p => some ('[' :: c :: rest.takeWhile (fun x => x = ']'), p)
        | none => hostAlt2 ('[' :: c :: rest)
      else hostAlt2 ('[' :: c :: rest)
  | r => hostAlt2 r

/-- Full match of authority_regex, returning host capture and port capture.
The optional userinfo group can participate exactly when the authority contains
an at sign, and then the host part starts after the first at sign; if the suffix
after that at sign admits no host-and-port match the engine retries with the
userinfo group skipped. -/
def authParse (a : Str) : Option (Str × Str) :=
  if a.any (fun c => c = '@') then
    match hostPort ((a.dropWhile (fun c => c ≠ '@')).tail) with
    | some hp => some hp
    | none => hostPort a
  else hostPort a

/-- The three URLParseError sites of the URLImpl constructor. -/
inductive ParseFailure where
  | malformed
  | invalidAuthority
  | invalidPort
deriving DecidableEq

/-- The component fields of URLImpl (the lazy query-parameter cache is not a
component of the value and is omitted). -/
structure URLRec where
  scheme : Str
  host : Str
  port : Nat
  path : Str
  query : Str
  fragment : Str
deriving DecidableEq

/-- std::stoi on the digit-only port capture (the regex guarantees one to five
decimal digits, so stoi never throws and never leaves characters unread). -/
def fromDecimal (l : Str) : Nat := l.foldl (fun a c => a * 10 + (c.toNat - 48)) 0

/-- The default_ports table. -/
def default_ports (s : Str) : Option Nat :=
  if s = str "http" then some 80
  else if s = str "https" then some 443
  else if s = str "ws" then some 80
  else if s = str "wss" then some 443
  else if s = str "ftp" then some 21
  else none

/-- The authority block of the URLImpl constructor: skipped entirely for an
empty authority capture; otherwise the authority must match authority_regex or
the constructor throws; a nonempty port capture goes through stoi and is stored
into the uint16_t member, which truncates it modulo 65536, and the subsequent
range check is written on the already-truncated member, exactly as in the
source; an absent port capture falls back to the default-port table. -/
def buildHostPort (scheme authority : Str) : Except ParseFailure (Str × Nat) :=
  if authority = [] then .ok ([], 0)
  else
    match authParse authority with
    | none => .error .invalidAuthority
    | some (h, pstr) =>
      if pstr = [] then
        match default_ports scheme with
        | some d => .ok (h, d)
        | none => .ok (h, 0)
      else
        if 65535 < fromDecimal pstr % 65536 then .error .invalidPort
        else .ok (h, fromDecimal pstr % 65536)

/-- The URLImpl constructor: top-level regex match, lower-cased scheme,
authority block, path defaulting. -/
def urlImpl (url : Str) : Except ParseFailure URLRec :=
  match parseTopLevel url with
  | none => .error .malformed
  | some m =>
    match buildHostPort (lowerStr m.scheme) m.authority with
    | .error e => .error e
    | .ok (host, port) =>
      .ok ⟨lowerStr m.scheme, host, port, (if m.path = [] then ['/'] else m.path),
        m.query, m.fragment⟩

/-- URL::parse: swallows every parse failure into an empty optional. -/
def parse (s : Str) : Option URLRec := (urlImpl s).toOption

/-- The what() strings carried by the three constructor throws; the inner stoi
try block rethrows any port failure with the invalid-port wording. -/
def failureMessage : ParseFailure → String
  | .malformed => "Invalid URL format"
  | .invalidAuthority => "Invalid authority component"
  | .invalidPort => "Invalid port number"

structure ValidationResult where
  valid : Bool
  reason : String
deriving DecidableEq

/-- URL::validate: runs the same constructor and reports the outcome. -/
def validate (s : Str) : ValidationResult :=
  match urlImpl s with
  | .ok _ => ⟨true, ""⟩
  | .error e => ⟨false, failureMessage e⟩

/-- One decimal digit as a character. -/
def digitChar (d : Nat) : Char :=
  if d = 0 then '0' else if d = 1 then '1' else if d = 2 then '2' else if d = 3 then '3'
  else if d = 4 then '4' else if d = 5 then '5' else if d = 6 then '6'
  else if d = 7 then '7' else if d = 8 then '8' else '9'

/-- Structural worker for decimal rendering; the fuel always suffices because a
number is smaller than its successor. -/
def toDecimalAux : Nat → Nat → Str
  | 0, _ => []
  | f + 1, n =>
    if n < 10 then [digitChar n]
    else toDecimalAux f (n / 10) ++ [digitChar (n % 10)]

/-- Decimal rendering of the port, as the stream insertion of a uint16_t does. -/
def toDecimal (n : Nat) : Str := toDecimalAux (n + 1) n

/-- The port segment of URL::to_string: emitted only when the stored port is
nonzero and the default-port table has no entry for the current scheme equal to
it. -/
def portPart (u : URLRec) : Str :=
  if u.port ≠ 0 then
    match default_ports u.scheme with
    | some d => if d ≠ u.port then ':' :: toDecimal u.port else []
    | none => ':' :: toDecimal u.port
  else []

/-- URL::to_string. -/
def to_string (u : URLRec) : Str :=
  u.scheme ++ str "://" ++ u.host ++ portPart u ++ u.path ++
  (if u.query ≠ [] then '?' :: u.query else []) ++
  (if u.fragment ≠ [] then '#' :: u.fragment else [])

/-- The two URLValidationError sites of the mutators. -/
inductive ValidationError where
  | invalidScheme
  | zeroPort
deriving DecidableEq

/-- The C isalpha in the default locale: ASCII letters only. -/
def isalpha (c : Char) : Bool :=
  (65 ≤ c.toNat && c.toNat ≤ 90) || (97 ≤ c.toNat && c.toNat ≤ 122)

/-- URL::set_scheme: lower-cases its argument, throws when the result is empty or
does not start with an ASCII letter, otherwise stores it; the throw happens
before the store, so a failing call leaves the value untouched. -/
def set_scheme (s : Str) (u : URLRec) : Except ValidationError URLRec :=
  match lowerStr s with
  | [] => .error .invalidScheme
  | c :: t => if isalpha c then .ok { u with scheme := c :: t } else .error .invalidScheme

/-- URL::set_port: the argument is already a uint16_t at the call boundary;
zero throws before any store. -/
def set_port (p : Nat) (u : URLRec) : Except ValidationError URLRec :=
  if p = 0 then .error .zeroPort else .ok { u with port := p }

/-- URL::is_secure. -/
def is_secure (u : URLRec) : Bool := u.scheme = str "https" || u.scheme = str "wss"

/-- The whitespace skipped by formatted stream extraction. -/
def isStreamSpace (c : Char) : Bool :=
  c = ' ' || c = '\t' || c = '\n' || c = Char.ofNat 11 || c = Char.ofNat 12 || c = '\r'

def isHexDigitChar (c : Char) : Bool :=
  isDigitChar c || (97 ≤ c.toNat && c.toNat ≤ 102) || (65 ≤ c.toNat && c.toNat ≤ 70)

def hexVal (c : Char) : Nat :=
  if isDigitChar c then c.toNat - 48
  else if 97 ≤ c.toNat then c.toNat - 87
  else c.toNat - 55

/-- Value of the longest hex-digit run at the front of the field; an empty run
reads as zero, matching the zero a failed extraction writes since C++11. -/
def hexRunVal (l : Str) : Nat :=
  (l.takeWhile isHexDigitChar).foldl (fun a c => a * 16 + hexVal c) 0

/-- Model of feeding exactly two characters through a std::stringstream in hex
mode and extracting an int: leading whitespace is skipped, an optional sign is
read, then hex digits; when no digit is read the extraction fails and writes
zero (a bare zero-x field also converts to zero). -/
def streamHexValue (c1 c2 : Char) : Int :=
  match [c1, c2].dropWhile isStreamSpace with
  | [] => 0
  | a :: rest =>
    if a = '+' then (hexRunVal rest : Int)
    else if a = '-' then -(hexRunVal rest : Int)
    else (hexRunVal (a :: rest) : Int)

/-- static_cast of the extracted int to char, stored as a byte of the result. -/
def castChar (v : Int) : Char := Char.ofNat ((v % 256).toNat)

/-- URLImpl::decode_uri_component.  A percent with at least two following
characters always consumes three characters and appends the cast of the stream
hex extraction of the two characters; a plus becomes a space; everything else,
including a percent with fewer than two followers, is copied through. -/
def decode_uri_component : Str → Str
  | [] => []
  | '%' :: c1 :: c2 :: rest => castChar (streamHexValue c1 c2) :: decode_uri_component rest
  | c :: rest => (if c = '+' then ' ' else c) :: decode_uri_component rest

/-- Percent-decoding as the specification sentence literally describes it: only
a percent followed by two hex digits is decoded, every other character passes
through unchanged.  Stated for comparison with decode_uri_component. -/
def decodeSpecClaimed : Str → Str
  | [] => []
  | '%' :: c1 :: c2 :: rest =>
    if isHexDigitChar c1 && isHexDigitChar c2 then
      Char.ofNat (16 * hexVal c1 + hexVal c2) :: decodeSpecClaimed rest
    else '%' :: decodeSpecClaimed (c1 :: c2 :: rest)
  | c :: rest => (if c = '+' then ' ' else c) :: decodeSpecClaimed rest

end Seedlib

namespace Seedlib

/-! ## Basic character and list lemmas -/

theorem charToNatInj {a b : Char} (h : a.toNat = b.toNat) : a = b :=
  Char.eq_of_val_eq (UInt32.ext h)

theorem char_eq_iff_toNat {c d : Char} : c = d ↔ c.toNat = d.toNat :=
  ⟨fun h => h ▸ rfl, charToNatInj⟩

theorem charOfNatToNat {n : Nat} (h : n < 55296) : (Char.ofNat n).toNat = n := by
  rw [Char.ofNat, dif_pos (Or.inl h)]
  rfl

theorem tolower_toNat (c : Char) :
    (tolower c).toNat = if 65 ≤ c.toNat ∧ c.toNat ≤ 90 then c.toNat + 32 else c.toNat := by
  unfold tolower
  split
  case isTrue h => exact charOfNatToNat (by omega)
  case isFalse h => rfl

theorem tolower_tolower (c : Char) : tolower (tolower c) = tolower c := by
  apply charToNatInj
  rw [tolower_toNat (tolower c), tolower_toNat c]
  split_ifs <;> omega

theorem lowerStr_idem (s : Str) : lowerStr (lowerStr s) = lowerStr s := by
  unfold lowerStr
  rw [List.map_map]
  exact List.map_congr_left fun c _ => tolower_tolower c

theorem isTopSpecial_iff {c : Char} :
    isTopSpecial c = true ↔ (c.toNat = 58 ∨ c.toNat = 47 ∨ c.toNat = 63 ∨ c.toNat = 35) := by
  unfold isTopSpecial
  simp only [Bool.or_eq_true, decide_eq_true_eq, char_eq_iff_toNat,
    show (':' : Char).toNat = 58 from rfl, show ('/' : Char).toNat = 47 from rfl,
    show ('?' : Char).toNat = 63 from rfl, show ('#' : Char).toNat = 35 from rfl]
  tauto

theorem isAuthStop_iff {c : Char} :
    isAuthStop c = true ↔ (c.toNat = 47 ∨ c.toNat = 63 ∨ c.toNat = 35) := by
  unfold isAuthStop
  simp only [Bool.or_eq_true, decide_eq_true_eq, char_eq_iff_toNat,
    show ('/' : Char).toNat = 47 from rfl,
    show ('?' : Char).toNat = 63 from rfl, show ('#' : Char).toNat = 35 from rfl]
  tauto

theorem isPathStop_iff {c : Char} :
    isPathStop c = true ↔ (c.toNat = 63 ∨ c.toNat = 35) := by
  unfold isPathStop
  simp only [Bool.or_eq_true, decide_eq_true_eq, char_eq_iff_toNat,
    show ('?' : Char).toNat = 63 from rfl, show ('#' : Char).toNat = 35 from rfl]

theorem tolower_isTopSpecial (c : Char) : isTopSpecial (tolower c) = isTopSpecial c := by
  by_cases h : isTopSpecial c = true
  · have hn := isTopSpecial_iff.mp h
    have : tolower c = c := by
      apply charToNatInj
      rw [tolower_toNat, if_neg (by omega)]
    rw [this]
  · rw [Bool.not_eq_true] at h
    rw [h]
    rw [← Bool.not_eq_true]
    intro habs
    have hn := isTopSpecial_iff.mp habs
    rw [tolower_toNat] at hn
    have hc : ¬(c.toNat = 58 ∨ c.toNat = 47 ∨ c.toNat = 63 ∨ c.toNat = 35) := by
      intro habs2
      exact absurd (isTopSpecial_iff.mpr habs2) (by rw [h]; simp)
    by_cases hr : 65 ≤ c.toNat ∧ c.toNat ≤ 90
    · rw [if_pos hr] at hn
      omega
    · rw [if_neg hr] at hn
      exact hc hn

theorem takeWhile_append_all {p : Char → Bool} {l1 : Str} (l2 : Str)
    (h : ∀ c ∈ l1, p c = true) :
    (l1 ++ l2).takeWhile p = l1 ++ l2.takeWhile p := by
  induction l1 with
  | nil => rfl
  | cons a t ih =>
      have ha : p a = true := h a (List.mem_cons_self a t)
      simp only [List.cons_append, List.takeWhile_cons, ha, if_true]
      rw [ih fun c hc => h c (List.mem_cons_of_mem a hc)]

theorem dropWhile_append_all {p : Char → Bool} {l1 : Str} (l2 : Str)
    (h : ∀ c ∈ l1, p c = true) :
    (l1 ++ l2).dropWhile p = l2.dropWhile p := by
  induction l1 with
  | nil => rfl
  | cons a t ih =>
      have ha : p a = true := h a (List.mem_cons_self a t)
      simp only [List.cons_append, List.dropWhile_cons, ha, if_true]
      exact ih fun c hc => h c (List.mem_cons_of_mem a hc)

theorem mem_takeWhile {p : Char → Bool} {l : Str} {c : Char}
    (hc : c ∈ l.takeWhile p) : c ∈ l ∧ p c = true := by
  induction l with
  | nil => simp [List.takeWhile] at hc
  | cons a t ih =>
      rw [List.takeWhile_cons] at hc
      by_cases hp : p a
      · rw [if_pos hp] at hc
        rcases List.mem_cons.mp hc with rfl | h
        · exact ⟨List.mem_cons_self _ _, hp⟩
        · exact ⟨List.mem_cons_of_mem a (ih h).1, (ih h).2⟩
      · simp [hp] at hc

theorem mem_dropWhile {p : Char → Bool} {l : Str} {c : Char}
    (hc : c ∈ l.dropWhile p) : c ∈ l := by
  induction l with
  | nil => simp [List.dropWhile] at hc
  | cons a t ih =>
      rw [List.dropWhile_cons] at hc
      by_cases hp : p a
      · rw [if_pos hp] at hc
        exact List.mem_cons_of_mem a (ih hc)
      · rw [if_neg hp] at hc
        exact hc

theorem dropWhile_head_false {p : Char → Bool} {l : Str} {c : Char} {t : Str}
    (h : l.dropWhile p = c :: t) : p c = false := by
  induction l with
  | nil => simp [List.dropWhile] at h
  | cons a r ih =>
      rw [List.dropWhile_cons] at h
      by_cases hp : p a
      · rw [if_pos hp] at h
        exact ih h
      · rw [if_neg hp] at h
        cases h
        exact Bool.of_not_eq_true hp

/-! ## Decimal rendering lemmas -/

theorem digitChar_toNat {d : Nat} (h : d < 10) : (digitChar d).toNat = 48 + d := by
  interval_cases d <;> rfl

theorem toDecimalAux_irrel :
    ∀ f1 f2 n, n < f1 → n < f2 → toDecimalAux f1 n = toDecimalAux f2 n := by
  intro f1
  induction f1 with
  | zero => omega
  | succ f ih =>
      intro f2 n h1 h2
      rcases f2 with _ | f2g
      · omega
      · show toDecimalAux (f + 1) n = toDecimalAux (f2g + 1) n
        unfold toDecimalAux
        by_cases hn : n < 10
        · rw [if_pos hn, if_pos hn]
        · rw [if_neg hn, if_neg hn, ih f2g (n / 10) (by omega) (by omega)]

theorem toDecimal_unfold (n : Nat) :
    toDecimal n = if n < 10 then [digitChar n] else toDecimal (n / 10) ++ [digitChar (n % 10)] := by
  unfold toDecimal
  show toDecimalAux (n + 1) n = _
  unfold toDecimalAux
  by_cases hn : n < 10
  · rw [if_pos hn, if_pos hn]
  · rw [if_neg hn, if_neg hn,
      toDecimalAux_irrel n (n / 10 + 1) (n / 10) (by omega) (by omega)]
    exact rfl

theorem toDecimal_ne_nil (n : Nat) : toDecimal n ≠ [] := by
  rw [toDecimal_unfold]
  split
  · simp
  · simp

theorem toDecimal_all_digit (n : Nat) : ∀ c ∈ toDecimal n, isDigitChar c = true := by
  induction n using Nat.strong_induction_on with
  | _ n ih =>
    rw [toDecimal_unfold]
    split
    case isTrue h =>
      intro c hc
      rcases List.mem_singleton.mp hc with rfl
      unfold isDigitChar
      rw [digitChar_toNat h]
      simp
      omega
    case isFalse h =>
      intro c hc
      rcases List.mem_append.mp hc with h1 | h1
      · exact ih (n / 10) (Nat.div_lt_self (by omega) (by omega)) c h1
      · rcases List.mem_singleton.mp h1 with rfl
        unfold isDigitChar
        rw [digitChar_toNat (Nat.mod_lt n (by omega))]
        simp
        omega

theorem fromDecimal_toDecimal (n : Nat) : fromDecimal (toDecimal n) = n := by
  induction n using Nat.strong_induction_on with
  | _ n ih =>
    rw [toDecimal_unfold]
    split
    case isTrue h =>
      interval_cases n <;> decide
    case isFalse h =>
      unfold fromDecimal
      rw [List.foldl_append]
      have h1 : fromDecimal (toDecimal (n / 10)) = n / 10 :=
        ih (n / 10) (Nat.div_lt_self (by omega) (by omega))
      unfold fromDecimal at h1
      rw [h1]
      simp only [List.foldl_cons, List.foldl_nil]
      rw [digitChar_toNat (Nat.mod_lt n (by omega))]
      omega

theorem toDecimal_length_le {n k : Nat} (hk : 1 ≤ k) (h : n < 10 ^ k) :
    (toDecimal n).length ≤ k := by
  induction n using Nat.strong_induction_on generalizing k with
  | _ n ih =>
    rw [toDecimal_unfold]
    split
    case isTrue hn => simpa using hk
    case isFalse hn =>
      rcases Nat.exists_eq_add_of_le hk with ⟨k1, rfl⟩
      rcases Nat.eq_zero_or_pos k1 with rfl | hk1
      · exfalso
        simp [pow_one] at h
        omega
      · have hdiv : n / 10 < 10 ^ k1 := by
          rw [Nat.div_lt_iff_lt_mul (by omega)]
          calc n < 10 ^ (1 + k1) := h
          _ = 10 ^ k1 * 10 := by rw [add_comm, pow_succ]
        have := ih (n / 10) (Nat.div_lt_self (by omega) (by omega)) hk1 hdiv
        simp only [List.length_append, List.length_singleton]
        omega

/-! ## Inversion lemmas for the mutators and to_string -/

theorem set_scheme_ok_inv {s : Str} {u v : URLRec}
    (h : set_scheme s u = .ok v) : v = { u with scheme := lowerStr s } := by
  unfold set_scheme at h
  rcases hl : lowerStr s with _ | ⟨c, t⟩
  · rw [hl] at h
    simp at h
  · rw [hl] at h
    by_cases ha : isalpha c
    · simp only [if_pos ha] at h
      cases h
      rfl
    · simp only [if_neg ha] at h
      simp at h

theorem portPart_eq (u : URLRec) :
    portPart u =
      if u.port ≠ 0 ∧ default_ports u.scheme ≠ some u.port
      then ':' :: toDecimal u.port else [] := by
  unfold portPart
  by_cases hp : u.port = 0
  · simp [hp]
  · rcases hd : default_ports u.scheme with _ | d
    · simp [hp, hd]
    · by_cases hdp : d = u.port
      · simp [hp, hd, hdp]
      · simp [hp, hd, hdp]

/-! ## Claim C3: parse of an input with no scheme and no authority -/

/-- Claim C3 (code-bug evidence).  The claim and the test suite of the
repository say parse of the string holding the words not, a, url separated by
spaces yields no value; the code in fact accepts it: the whole input becomes the
path capture of url_regex, nothing throws, and a URL with empty scheme and host
is produced. -/
theorem c3_parse_not_a_url_succeeds :
    parse (str "not a url") = some ⟨[], [], 0, str "not a url", [], []⟩ := by decide

/-! ## Claim C4: parse of a scheme with empty authority -/

/-- Claim C4 (code-bug evidence).  The claim, the spec and the repository's test
suite say the input consisting of the scheme http, a colon and two slashes
yields no value; the code accepts it: the authority capture is empty, so the
authority block (and any failure it could raise) is skipped, the empty path is
defaulted to a slash, and a URL with host-less http scheme is produced. -/
theorem c4_parse_scheme_only_succeeds :
    parse (str "http://") = some ⟨str "http", [], 0, str "/", [], []⟩ := by decide

/-! ## Claim C2: port range validation -/

/-- Claim C2 (code-bug evidence).  The claim says a captured port of value
99999 fails the parse with an invalid-port failure.  In the code the int
returned by stoi is first stored into the uint16_t member, truncating 99999 to
34463, and the greater-than-65535 range check is performed on the truncated
member, so it can never fire: the parse succeeds with port 34463. -/
theorem c2_port_99999_wraps_instead_of_failing :
    parse (str "http://example.com:99999/") =
      some ⟨str "http", str "example.com", 34463, str "/", [], []⟩ ∧
    validate (str "http://example.com:99999/") = ⟨true, ""⟩ := by decide

/-! ## Claim C9: parse and validate agree -/

/-- Claim C9: parse yields a value exactly when validate reports valid, and a
valid input gets an empty reason string; both run the one constructor, validate
never raises (it is a total function here). -/
theorem c9_parse_validate_agree (s : Str) :
    (parse s).isSome = (validate s).valid ∧
    ((validate s).valid = true → (validate s).reason = "") := by
  unfold parse validate
  cases urlImpl s <;> simp [Except.toOption]

/-- Witness for C9 at a concrete input. -/
theorem c9_parse_validate_agree_witness :
    ((parse (str "https://example.com")).isSome
        = (validate (str "https://example.com")).valid) ∧
    (validate (str "https://example.com")).reason = "" :=
  ⟨(c9_parse_validate_agree (str "https://example.com")).1,
   (c9_parse_validate_agree (str "https://example.com")).2 (by decide)⟩

/-! ## Claim C8: set_port -/

/-- Claim C8: set_port rejects zero with the zero-port failure and leaves the
value unmodified (the throw happens before the store); every nonzero port up to
65535 is accepted and replaces only the port field. -/
theorem c8_set_port (u : URLRec) (p : Nat) (_hp : p ≤ 65535) :
    (p = 0 → set_port p u = .error .zeroPort) ∧
    (p ≠ 0 → set_port p u = .ok { u with port := p }) := by
  unfold set_port
  constructor
  · intro h
    rw [if_pos h]
  · intro h
    rw [if_neg h]

/-- Witness for C8 at port zero and port 8080. -/
theorem c8_set_port_witness :
    set_port 0 ⟨str "http", str "example.com", 80, str "/", [], []⟩ = .error .zeroPort ∧
    set_port 8080 ⟨str "http", str "example.com", 80, str "/", [], []⟩ =
      .ok ⟨str "http", str "example.com", 8080, str "/", [], []⟩ :=
  ⟨(c8_set_port ⟨str "http", str "example.com", 80, str "/", [], []⟩ 0 (by norm_num)).1 rfl,
   (c8_set_port ⟨str "http", str "example.com", 80, str "/", [], []⟩ 8080 (by norm_num)).2
     (by norm_num)⟩

/-! ## Claim C7: set_scheme -/

/-- Claim C7: set_scheme lower-cases its argument; it fails with the
invalid-scheme failure exactly when the lowered text is empty or starts with a
non-letter, and on success only the scheme field changes, to the lowered text.
In particular the empty string and a digit-led string fail, while the upper-case
HTTPS succeeds, stores https and makes is_secure true. -/
theorem c7_set_scheme (s : Str) (u : URLRec) :
    (set_scheme s u = .error .invalidScheme ↔
      (lowerStr s = [] ∨ ∃ c t, lowerStr s = c :: t ∧ isalpha c = false)) ∧
    (set_scheme s u = .ok { u with scheme := lowerStr s } ↔
      ∃ c t, lowerStr s = c :: t ∧ isalpha c = true) ∧
    set_scheme [] u = .error .invalidScheme ∧
    set_scheme (str "9abc") u = .error .invalidScheme ∧
    set_scheme (str "HTTPS") u = .ok { u with scheme := str "https" } ∧
    is_secure { u with scheme := str "https" } = true := by
  refine ⟨?_, ?_, by rfl, by rfl, ?_, by simp [is_secure]⟩
  · unfold set_scheme
    rcases hl : lowerStr s with _ | ⟨c, t⟩
    · simp
    · by_cases ha : isalpha c
      · simp [ha]
      · simp only [Bool.not_eq_true] at ha
        simp [ha]
  · unfold set_scheme
    rcases hl : lowerStr s with _ | ⟨c, t⟩
    · simp
    · by_cases ha : isalpha c
      · simp [ha]
      · simp only [Bool.not_eq_true] at ha
        simp [ha]
  · have h9 : lowerStr (str "HTTPS") = str "https" := by decide
    unfold set_scheme
    rw [h9]
    rfl

/-- Witness for C7 at the concrete scheme HTTPS. -/
theorem c7_set_scheme_witness :
    set_scheme (str "HTTPS") ⟨str "http", str "example.com", 80, str "/", [], []⟩ =
      .ok ⟨str "https", str "example.com", 80, str "/", [], []⟩ :=
  (c7_set_scheme (str "HTTPS")
    ⟨str "http", str "example.com", 80, str "/", [], []⟩).2.2.2.2.1

/-! ## Claim C6: to_string and the default-port omission rule -/

/-- Claim C6: to_string rebuilds scheme, separator, host, optional port
segment, path, optional query and optional fragment, and the port segment
appears exactly when the port is nonzero and the default-port table entry of the
scheme current at serialization time differs or is absent; after set_scheme the
check runs against the new lowered scheme, not the parse-time one. -/
theorem c6_to_string_port_rule (u v : URLRec) (s : Str)
    (hset : set_scheme s u = .ok v) :
    to_string u = u.scheme ++ str "://" ++ u.host ++
      (if u.port ≠ 0 ∧ default_ports u.scheme ≠ some u.port
        then ':' :: toDecimal u.port else []) ++ u.path ++
      (if u.query ≠ [] then '?' :: u.query else []) ++
      (if u.fragment ≠ [] then '#' :: u.fragment else []) ∧
    to_string v = lowerStr s ++ str "://" ++ u.host ++
      (if u.port ≠ 0 ∧ default_ports (lowerStr s) ≠ some u.port
        then ':' :: toDecimal u.port else []) ++ u.path ++
      (if u.query ≠ [] then '?' :: u.query else []) ++
      (if u.fragment ≠ [] then '#' :: u.fragment else []) := by
  have hv : v = { u with scheme := lowerStr s } := set_scheme_ok_inv hset
  constructor
  · unfold to_string
    rw [portPart_eq]
  · unfold to_string
    rw [portPart_eq, hv]

/-! ## Claim C5: percent-decoding -/

theorem isStreamSpace_iff {c : Char} :
    isStreamSpace c = true ↔
      (c.toNat = 32 ∨ c.toNat = 9 ∨ c.toNat = 10 ∨ c.toNat = 11 ∨
        c.toNat = 12 ∨ c.toNat = 13) := by
  unfold isStreamSpace
  simp only [Bool.or_eq_true, decide_eq_true_eq, char_eq_iff_toNat,
    show (' ' : Char).toNat = 32 from rfl, show ('\t' : Char).toNat = 9 from rfl,
    show ('\n' : Char).toNat = 10 from rfl,
    show (Char.ofNat 11).toNat = 11 from charOfNatToNat (by norm_num),
    show (Char.ofNat 12).toNat = 12 from charOfNatToNat (by norm_num),
    show ('\r' : Char).toNat = 13 from rfl]
  tauto

theorem isHexDigitChar_iff {c : Char} :
    isHexDigitChar c = true ↔
      ((48 ≤ c.toNat ∧ c.toNat ≤ 57) ∨ (97 ≤ c.toNat ∧ c.toNat ≤ 102) ∨
        (65 ≤ c.toNat ∧ c.toNat ≤ 70)) := by
  unfold isHexDigitChar isDigitChar
  simp only [Bool.or_eq_true, Bool.and_eq_true, decide_eq_true_eq]
  tauto

theorem hex_not_space {c : Char} (h : isHexDigitChar c = true) :
    isStreamSpace c = false := by
  have hn := isHexDigitChar_iff.mp h
  rw [← Bool.not_eq_true, isStreamSpace_iff]
  omega

theorem hex_ne_plus {c : Char} (h : isHexDigitChar c = true) : c ≠ '+' := by
  have hn := isHexDigitChar_iff.mp h
  intro heq
  rw [char_eq_iff_toNat, show ('+' : Char).toNat = 43 from rfl] at heq
  omega

theorem hex_ne_minus {c : Char} (h : isHexDigitChar c = true) : c ≠ '-' := by
  have hn := isHexDigitChar_iff.mp h
  intro heq
  rw [char_eq_iff_toNat, show ('-' : Char).toNat = 45 from rfl] at heq
  omega

theorem hexVal_le {c : Char} (h : isHexDigitChar c = true) : hexVal c ≤ 15 := by
  have hn := isHexDigitChar_iff.mp h
  unfold hexVal isDigitChar
  split_ifs with h1 h2 <;>
    simp only [Bool.and_eq_true, decide_eq_true_eq] at h1 ⊢ <;> omega

theorem streamHexValue_two_hex {c1 c2 : Char}
    (h1 : isHexDigitChar c1 = true) (h2 : isHexDigitChar c2 = true) :
    streamHexValue c1 c2 = ((16 * hexVal c1 + hexVal c2 : Nat) : Int) := by
  unfold streamHexValue
  rw [List.dropWhile_cons, hex_not_space h1]
  simp only [Bool.false_eq_true, if_false]
  rw [if_neg (by exact hex_ne_plus h1), if_neg (by exact hex_ne_minus h1)]
  unfold hexRunVal
  rw [List.takeWhile_cons, h1]
  simp only [if_true]
  rw [List.takeWhile_cons, h2]
  simp only [if_true, List.takeWhile_nil, List.foldl_cons, List.foldl_nil]
  push_cast
  ring

/-- Claim C5 counterexample.  On a percent followed by two non-hex characters
the specification text predicts pure pass-through, but decode_uri_component
consumes the triple and appends the zero byte that the failed hex extraction
writes into the int. -/
theorem c5_decode_counterexample :
    decode_uri_component (str "%zz") ≠ decodeSpecClaimed (str "%zz") ∧
    decode_uri_component (str "%zz") = [Char.ofNat 0] ∧
    decodeSpecClaimed (str "%zz") = str "%zz" := by decide

/-- Claim C5 as amended.  The scan is left to right; a percent with at least two
following characters always consumes three characters and appends the byte that
the stream hex read of the two characters produces: the encoded byte when both
are hex digits, the value of the leading hex-digit run otherwise, and in
particular the zero byte when the first character is not a hex digit, not
whitespace and not a sign.  A plus decodes to a space, every character outside
such a triple passes through unchanged, and a trailing percent with fewer than
two followers is left as-is. -/
theorem c5_decode_amended :
    (∀ c1 c2 r, isHexDigitChar c1 = true → isHexDigitChar c2 = true →
      decode_uri_component ('%' :: c1 :: c2 :: r) =
        Char.ofNat (16 * hexVal c1 + hexVal c2) :: decode_uri_component r) ∧
    (∀ c1 c2 r, decode_uri_component ('%' :: c1 :: c2 :: r) =
      castChar (streamHexValue c1 c2) :: decode_uri_component r) ∧
    (∀ c1 c2 r, isHexDigitChar c1 = false → isStreamSpace c1 = false →
      c1 ≠ '+' → c1 ≠ '-' →
      decode_uri_component ('%' :: c1 :: c2 :: r) =
        Char.ofNat 0 :: decode_uri_component r) ∧
    (∀ r, decode_uri_component ('+' :: r) = ' ' :: decode_uri_component r) ∧
    (∀ c r, c ≠ '%' → c ≠ '+' →
      decode_uri_component (c :: r) = c :: decode_uri_component r) ∧
    decode_uri_component ['%'] = ['%'] ∧
    (∀ c, decode_uri_component ['%', c] = '%' :: decode_uri_component [c]) := by
  have hplus : ∀ r, decode_uri_component ('+' :: r) = ' ' :: decode_uri_component r := by
    intro r
    match r with
    | [] => rfl
    | [a] => rfl
    | a :: b :: t => rfl
  have hother : ∀ c r, c ≠ '%' → c ≠ '+' →
      decode_uri_component (c :: r) = c :: decode_uri_component r := by
    intro c r hc hp
    match r with
    | [] => simp [decode_uri_component, hp]
    | [a] => simp [decode_uri_component, hp]
    | a :: b :: t =>
        rw [decode_uri_component]
        · rw [if_neg hp]
        · intro c1 c2 rest h1 h2
          exact hc h1
  have htriple : ∀ c1 c2 r, decode_uri_component ('%' :: c1 :: c2 :: r) =
      castChar (streamHexValue c1 c2) :: decode_uri_component r := by
    intro c1 c2 r
    rfl
  refine ⟨?_, htriple, ?_, hplus, hother, rfl, fun c => rfl⟩
  · intro c1 c2 r h1 h2
    rw [htriple, streamHexValue_two_hex h1 h2]
    unfold castChar
    have hle : 16 * hexVal c1 + hexVal c2 < 256 := by
      have := hexVal_le h1
      have := hexVal_le h2
      omega
    rw [Int.emod_eq_of_lt (by positivity) (by exact_mod_cast hle)]
    congr 1
  · intro c1 c2 r h1 hsp hp hm
    rw [htriple]
    have : streamHexValue c1 c2 = 0 := by
      unfold streamHexValue
      rw [List.dropWhile_cons, hsp]
      simp only [Bool.false_eq_true, if_false]
      rw [if_neg hp, if_neg hm]
      unfold hexRunVal
      rw [List.takeWhile_cons, h1]
      simp
    rw [this]
    rfl

/-- Witness for the amended C5 at concrete inputs: a decodable triple and a
plus sign. -/
theorem c5_decode_amended_witness :
    decode_uri_component (str "%41+") = str "A " := by
  have h1 := c5_decode_amended.1 '4' '1' ['+'] (by decide) (by decide)
  have h2 := c5_decode_amended.2.2.2.1 ([] : Str)
  rw [show str "%41+" = '%' :: '4' :: '1' :: ['+'] from rfl, h1, h2]
  decide

/-! ## Claim C10: an explicit zero port -/

/-- Claim C10: when the authority carries an explicit port capture holding the
single digit zero, the parse succeeds, the stored port is zero exactly as for an
unspecified port, the default-port table is not consulted (the branch that
fills defaults only runs for an empty port capture), and to_string emits no port
segment. -/
theorem c10_explicit_zero_port (s : Str) (m : TopMatch) (h : Str)
    (hm : parseTopLevel s = some m) (ha : m.authority ≠ [])
    (hp : authParse m.authority = some (h, ['0'])) :
    parse s = some ⟨lowerStr m.scheme, h, 0,
        (if m.path = [] then ['/'] else m.path), m.query, m.fragment⟩ ∧
    to_string ⟨lowerStr m.scheme, h, 0, (if m.path = [] then ['/'] else m.path),
        m.query, m.fragment⟩ =
      lowerStr m.scheme ++ str "://" ++ h ++ (if m.path = [] then ['/'] else m.path) ++
      (if m.query ≠ [] then '?' :: m.query else []) ++
      (if m.fragment ≠ [] then '#' :: m.fragment else []) := by
  constructor
  · have h0 : fromDecimal ['0'] % 65536 = 0 := by decide
    unfold parse urlImpl buildHostPort
    rw [hm]
    simp [ha, hp, h0, Except.toOption]
  · unfold to_string portPart
    simp

/-- Witness for C10 at a concrete input whose scheme is in the default-port
table. -/
theorem c10_explicit_zero_port_witness :
    parse (str "http://example.com:0/") =
      some ⟨str "http", str "example.com", 0, str "/", [], []⟩ ∧
    to_string ⟨str "http", str "example.com", 0, str "/", [], []⟩ =
      str "http://example.com/" := by
  have h := c10_explicit_zero_port (str "http://example.com:0/")
      ⟨str "http", str "example.com:0", str "/", [], []⟩ (str "example.com")
      (by decide) (by decide) (by decide)
  constructor
  · exact h.1.trans (by decide)
  · exact h.2.trans (by decide)

/-- Witness for C6: a URL parsed as http with explicit port 443 shows the port;
after set_scheme to https the same port 443 is the default and disappears. -/
theorem c6_to_string_port_rule_witness :
    to_string ⟨str "http", str "example.com", 443, str "/", [], []⟩ =
      str "http://example.com:443/" ∧
    to_string ⟨str "https", str "example.com", 443, str "/", [], []⟩ =
      str "https://example.com/" := by
  have h := c6_to_string_port_rule
      ⟨str "http", str "example.com", 443, str "/", [], []⟩
      ⟨str "https", str "example.com", 443, str "/", [], []⟩
      (str "https") (by rfl)
  exact ⟨h.1.trans (by decide), h.2.trans (by decide)⟩

/-! ## Claim C1: round-trip stability.  Supporting lemmas. -/

theorem schemeSplit_of_append {sch : Str} (rest : Str) (hne : sch ≠ [])
    (hall : ∀ c ∈ sch, isTopSpecial c = false) :
    schemeSplit (sch ++ ':' :: rest) = (sch, rest) := by
  unfold schemeSplit
  have htw : (sch ++ ':' :: rest).takeWhile (fun c => !isTopSpecial c) = sch := by
    rw [takeWhile_append_all (':' :: rest) (fun c hc => by simp [hall c hc])]
    rw [List.takeWhile_cons]
    simp [isTopSpecial]
  have hdw : (sch ++ ':' :: rest).dropWhile (fun c => !isTopSpecial c) = ':' :: rest := by
    rw [dropWhile_append_all (':' :: rest) (fun c hc => by simp [hall c hc])]
    rw [List.dropWhile_cons]
    simp [isTopSpecial]
  rw [htw, hdw]
  simp [hne]

theorem portOpt_nil : portOpt [] = some [] := rfl

theorem portOpt_cons (c : Char) (d : Str) :
    portOpt (c :: d) =
      if c = ':' ∧ d ≠ [] ∧ d.length ≤ 5 ∧ d.all isDigitChar then some d else none := rfl

theorem portOpt_inv {pp pnew : Str} (h : portOpt pp = some pnew) :
    (pp = [] ∧ pnew = []) ∨
      (pp = ':' :: pnew ∧ pnew ≠ [] ∧ pnew.length ≤ 5 ∧ pnew.all isDigitChar = true) := by
  rcases pp with _ | ⟨c, d⟩
  · left
    rw [portOpt_nil] at h
    cases h
    exact ⟨rfl, rfl⟩
  · right
    rw [portOpt_cons] at h
    by_cases hc : c = ':' ∧ d ≠ [] ∧ d.length ≤ 5 ∧ d.all isDigitChar
    · rw [if_pos hc] at h
      cases h
      exact ⟨by rw [hc.1], hc.2.1, hc.2.2.1, by simpa using hc.2.2.2⟩
    · rw [if_neg hc] at h
      cases h

theorem digit_facts {c : Char} (h : isDigitChar c = true) :
    c ≠ ':' ∧ c ≠ ']' ∧ c ≠ '@' ∧ c ≠ '[' ∧ isAuthStop c = false := by
  unfold isDigitChar at h
  simp only [Bool.and_eq_true, decide_eq_true_eq] at h
  refine ⟨?_, ?_, ?_, ?_, ?_⟩
  · intro he; rw [char_eq_iff_toNat, show (':' : Char).toNat = 58 from rfl] at he; omega
  · intro he; rw [char_eq_iff_toNat, show (']' : Char).toNat = 93 from rfl] at he; omega
  · intro he; rw [char_eq_iff_toNat, show ('@' : Char).toNat = 64 from rfl] at he; omega
  · intro he; rw [char_eq_iff_toNat, show ('[' : Char).toNat = 91 from rfl] at he; omega
  · rw [← Bool.not_eq_true, isAuthStop_iff]; omega

theorem portPart_char_facts (u : URLRec) :
    ∀ c ∈ portPart u, isAuthStop c = false ∧ c ≠ '@' ∧ c ≠ '-' := by
  rw [portPart_eq]
  split
  · intro c hc
    rcases List.mem_cons.mp hc with rfl | hmem
    · refine ⟨by rw [← Bool.not_eq_true, isAuthStop_iff]; simp, ?_, ?_⟩
      · intro he
        rw [char_eq_iff_toNat, show ('@' : Char).toNat = 64 from rfl] at he
        simp at he
      · intro he
        rw [char_eq_iff_toNat, show ('-' : Char).toNat = 45 from rfl] at he
        simp at he
    · have hd := toDecimal_all_digit u.port c hmem
      have := digit_facts hd
      refine ⟨this.2.2.2.2, this.2.2.1, ?_⟩
      unfold isDigitChar at hd
      simp only [Bool.and_eq_true, decide_eq_true_eq] at hd
      intro he
      rw [char_eq_iff_toNat, show ('-' : Char).toNat = 45 from rfl] at he
      omega
  · intro c hc
    simp at hc

theorem portOpt_portPart (u : URLRec) (hu : u.port < 65536) :
    portOpt (portPart u) =
      some (if u.port ≠ 0 ∧ default_ports u.scheme ≠ some u.port
        then toDecimal u.port else []) := by
  rw [portPart_eq]
  split
  · rw [portOpt_cons, if_pos ?_]
    refine ⟨rfl, toDecimal_ne_nil u.port, ?_, by
      simp only [List.all_eq_true]
      intro c hc
      simp [toDecimal_all_digit u.port c hc]⟩
    refine toDecimal_length_le (by norm_num) ?_
    norm_num
    omega
  · rfl

theorem querySplit_qmark (rest : Str) :
    querySplit ('?' :: rest) =
      (rest.takeWhile (fun c => c ≠ '#'), rest.dropWhile (fun c => c ≠ '#')) := rfl

theorem authoritySplit_slashes (w : Str) :
    authoritySplit ('/' :: '/' :: w) =
      (w.takeWhile (fun c => !isAuthStop c), w.dropWhile (fun c => !isAuthStop c)) := rfl

theorem authStage (hst pp pt tail : Str)
    (hhst : ∀ c ∈ hst, isAuthStop c = false)
    (hpp : ∀ c ∈ pp, isAuthStop c = false) :
    authoritySplit ('/' :: '/' :: ((hst ++ pp) ++ ('/' :: (pt ++ tail)))) =
      (hst ++ pp, '/' :: (pt ++ tail)) := by
  rw [authoritySplit_slashes]
  have hauth_all : ∀ c ∈ hst ++ pp, (fun c => !isAuthStop c) c = true := by
    intro c hc
    rcases List.mem_append.mp hc with hc | hc
    · simp [hhst c hc]
    · simp [hpp c hc]
  rw [Prod.mk.injEq]
  constructor
  · rw [takeWhile_append_all _ hauth_all, List.takeWhile_cons]
    simp [isAuthStop]
  · rw [dropWhile_append_all _ hauth_all, List.dropWhile_cons]
    simp [isAuthStop]

theorem pathStage (pt tail : Str)
    (hptall : ∀ c ∈ pt, isPathStop c = false)
    (htail : tail = [] ∨ ∃ x xs, tail = x :: xs ∧ isPathStop x = true) :
    pathSplit ('/' :: (pt ++ tail)) = ('/' :: pt, tail) := by
  unfold pathSplit
  rw [List.takeWhile_cons, List.dropWhile_cons,
    show isPathStop '/' = false from rfl]
  simp only [Bool.not_false, if_true, Prod.mk.injEq]
  have hptall2 : ∀ c ∈ pt, (fun c => !isPathStop c) c = true := by
    intro c hc
    simp [hptall c hc]
  rcases htail with rfl | ⟨x, xs, rfl, hx⟩
  · rw [takeWhile_append_all _ hptall2, dropWhile_append_all _ hptall2]
    simp
  · rw [takeWhile_append_all _ hptall2, dropWhile_append_all _ hptall2,
      List.takeWhile_cons, List.dropWhile_cons, hx]
    simp

theorem queryStage (q fp : Str) (hq : ∀ c ∈ q, c ≠ '#')
    (hfp : fp = [] ∨ ∃ g, fp = '#' :: g) :
    querySplit ((if q ≠ [] then '?' :: q else []) ++ fp) = (q, fp) := by
  have hqall : ∀ c ∈ q, (fun c => decide (c ≠ '#')) c = true := by
    intro c hc
    simp [hq c hc]
  by_cases hqe : q = []
  · subst hqe
    simp only [ne_eq, not_true_eq_false, if_false, List.nil_append]
    rcases hfp with rfl | ⟨g, rfl⟩
    · rfl
    · rfl
  · rw [if_pos hqe]
    show querySplit ('?' :: (q ++ fp)) = _
    rw [querySplit_qmark, Prod.mk.injEq]
    constructor
    · rw [takeWhile_append_all _ hqall]
      rcases hfp with rfl | ⟨g, rfl⟩
      · simp
      · rw [List.takeWhile_cons]
        simp
    · rw [dropWhile_append_all _ hqall]
      rcases hfp with rfl | ⟨g, rfl⟩
      · simp
      · rw [List.dropWhile_cons]
        simp

theorem fragStage (sch a p q f : Str) (hf : ∀ c ∈ f, isLineTerm c = false) :
    fragmentFinish sch a p q (if f ≠ [] then '#' :: f else []) =
      some ⟨sch, a, p, q, f⟩ := by
  by_cases hfe : f = []
  · subst hfe
    rfl
  · rw [if_pos hfe]
    show (if f.any isLineTerm then none else some (⟨sch, a, p, q, f⟩ : TopMatch)) = _
    rw [if_neg ?_]
    simp only [Bool.not_eq_true, List.any_eq_false]
    intro c hc
    simp [hf c hc]

theorem parseTopLevel_reconstruct
    (sch hst pp pth q f : Str)
    (hsch_ne : sch ≠ []) (hsch : ∀ c ∈ sch, isTopSpecial c = false)
    (hhst : ∀ c ∈ hst, isAuthStop c = false)
    (hpp : ∀ c ∈ pp, isAuthStop c = false)
    (hpth0 : ∃ t, pth = '/' :: t)
    (hpth : ∀ c ∈ pth, isPathStop c = false)
    (hq : ∀ c ∈ q, c ≠ '#') (hf : ∀ c ∈ f, isLineTerm c = false) :
    parseTopLevel (sch ++ str "://" ++ hst ++ pp ++ pth ++
      (if q ≠ [] then '?' :: q else []) ++ (if f ≠ [] then '#' :: f else [])) =
      some ⟨sch, hst ++ pp, pth, q, f⟩ := by
  obtain ⟨pt, rfl⟩ := hpth0
  have hptall : ∀ c ∈ pt, isPathStop c = false :=
    fun c hc => hpth c (List.mem_cons_of_mem _ hc)
  have hshape : sch ++ str "://" ++ hst ++ pp ++ ('/' :: pt) ++
      (if q ≠ [] then '?' :: q else []) ++ (if f ≠ [] then '#' :: f else [])
      = sch ++ ':' :: ('/' :: '/' :: ((hst ++ pp) ++
          ('/' :: (pt ++ ((if q ≠ [] then '?' :: q else []) ++
            (if f ≠ [] then '#' :: f else [])))))) := by
    simp [str, List.append_assoc]
  rw [hshape]
  unfold parseTopLevel
  rw [schemeSplit_of_append _ hsch_ne hsch]
  dsimp only
  rw [authStage hst pp pt _ hhst hpp]
  dsimp only
  rw [pathStage pt _ hptall ?_]
  · dsimp only
    rw [queryStage q _ hq ?_]
    · dsimp only
      exact fragStage sch (hst ++ pp) ('/' :: pt) q f hf
    · by_cases hfe : f = []
      · subst hfe
        left
        rfl
      · right
        exact ⟨f, by rw [if_pos hfe]⟩
  · by_cases hqe : q = []
    · subst hqe
      simp only [ne_eq, not_true_eq_false, if_false, List.nil_append]
      by_cases hfe : f = []
      · subst hfe
        left
        rfl
      · rw [if_pos hfe]
        right
        exact ⟨'#', f, rfl, rfl⟩
    · rw [if_pos hqe]
      right
      exact ⟨'?', q ++ (if f ≠ [] then '#' :: f else []), by simp, rfl⟩

/-! ## Authority round-trip lemmas -/

theorem portOpt_tw_dw {pp pnew : Str} (hpo : portOpt pp = some pnew) :
    pp.takeWhile (fun x => x = ']') = [] ∧ pp.dropWhile (fun x => x = ']') = pp ∧
      (∀ c ∈ pp, c ≠ '@') ∧ (∀ c ∈ pp, c ≠ ':' → isDigitChar c = true) := by
  rcases portOpt_inv hpo with ⟨rfl, rfl⟩ | ⟨rfl, hne, hlen, hdig⟩
  · exact ⟨rfl, rfl, by simp, by simp⟩
  · refine ⟨?_, ?_, ?_, ?_⟩
    · rw [List.takeWhile_cons]
      simp [eq_false (show ¬((':' : Char) = ']') by decide)]
    · rw [List.dropWhile_cons]
      simp [eq_false (show ¬((':' : Char) = ']') by decide)]
    · intro c hc
      rcases List.mem_cons.mp hc with rfl | hc
      · decide
      · rw [List.all_eq_true] at hdig
        exact (digit_facts (by simpa using hdig c hc)).2.2.1
    · intro c hc hcne
      rcases List.mem_cons.mp hc with rfl | hc
      · exact absurd rfl hcne
      · rw [List.all_eq_true] at hdig
        simpa using hdig c hc

theorem hostAlt2_inv {r h p : Str} (hr : hostAlt2 r = some (h, p)) :
    h = r.takeWhile (fun c => c ≠ ':') ∧ h ≠ [] ∧
      portOpt (r.dropWhile (fun c => c ≠ ':')) = some p := by
  unfold hostAlt2 at hr
  by_cases he : r.takeWhile (fun c => c ≠ ':') = []
  · rw [if_pos he] at hr
    cases hr
  · rw [if_neg he] at hr
    rcases hpo : portOpt (r.dropWhile (fun c => c ≠ ':')) with _ | p0
    · rw [hpo] at hr
      cases hr
    · rw [hpo] at hr
      simp only [Option.some.injEq, Prod.mk.injEq] at hr
      obtain ⟨h1, h2⟩ := hr
      exact ⟨h1.symm, h1 ▸ he, congrArg some h2⟩

theorem hostAlt2_append {h pp pnew : Str} (hne : h ≠ [])
    (hcolon : ∀ c ∈ h, c ≠ ':') (hpo : portOpt pp = some pnew) :
    hostAlt2 (h ++ pp) = some (h, pnew) := by
  have hall : ∀ c ∈ h, (fun c => decide (c ≠ ':')) c = true := by
    intro c hc
    simp [hcolon c hc]
  have htw : (h ++ pp).takeWhile (fun c => c ≠ ':') = h := by
    rw [takeWhile_append_all _ hall]
    rcases portOpt_inv hpo with ⟨rfl, rfl⟩ | ⟨rfl, hne2, hlen, hdig⟩
    · simp
    · rw [List.takeWhile_cons]
      simp
  have hdw : (h ++ pp).dropWhile (fun c => c ≠ ':') = pp := by
    rw [dropWhile_append_all _ hall]
    rcases portOpt_inv hpo with ⟨rfl, rfl⟩ | ⟨rfl, hne2, hlen, hdig⟩
    · simp
    · rw [List.dropWhile_cons]
      simp
  unfold hostAlt2
  rw [htw, hdw, if_neg hne, hpo]

theorem hostPort_lbracket (c : Char) (rest : Str) :
    hostPort ('[' :: c :: rest) =
      if 2 ≤ (rest.takeWhile (fun x => x = ']')).length then
        match portOpt (rest.dropWhile (fun x => x = ']')) with
        | some p => some ('[' :: c :: rest.takeWhile (fun x => x = ']'), p)
        | none => hostAlt2 ('[' :: c :: rest)
      else hostAlt2 ('[' :: c :: rest) := rfl

theorem hostPort_nil : hostPort [] = hostAlt2 [] := rfl

theorem hostPort_single (a : Char) : hostPort [a] = hostAlt2 [a] := by
  rw [hostPort]
  intro c rest h1
  injection h1 with h1a h1b
  simp at h1b

theorem hostPort_not_lbracket {a : Char} (b : Char) (t : Str) (ha : a ≠ '[') :
    hostPort (a :: b :: t) = hostAlt2 (a :: b :: t) := by
  rw [hostPort]
  intro c rest h1
  injection h1 with h1a h1b
  exact ha h1a

/-- Round trip through the second host alternative: a nonempty colon-free host
followed by a fresh valid port tail parses back to the same host with the new
port capture. -/
theorem hostAlt2_roundtrip {r h p pp pnew : Str}
    (hr : hostAlt2 r = some (h, p)) (hpo : portOpt pp = some pnew) :
    hostPort (h ++ pp) = some (h, pnew) := by
  obtain ⟨hh, hne, hpo0⟩ := hostAlt2_inv hr
  have hcolon : ∀ c ∈ h, c ≠ ':' := by
    intro c hc
    rw [hh] at hc
    have := (mem_takeWhile hc).2
    simpa using this
  obtain ⟨htwpp, hdwpp, _, _⟩ := portOpt_tw_dw hpo
  rcases hhs : h with _ | ⟨h0, h1⟩
  · exact absurd hhs hne
  · subst hhs
    by_cases h0b : h0 = '['
    · subst h0b
      rcases h1 with _ | ⟨c2, h2⟩
      · -- host is the single open bracket
        rcases portOpt_inv hpo with ⟨rfl, rfl⟩ | ⟨rfl, hne2, hlen, hdig⟩
        · rw [show ['['] ++ ([] : Str) = ['['] by simp, hostPort_single]
          exact hostAlt2_append hne hcolon hpo
        · rw [show ['['] ++ (':' :: pnew) = '[' :: ':' :: pnew by simp,
            hostPort_lbracket]
          have hrun : (pnew.takeWhile (fun x => x = ']')).length = 0 := by
            rcases pnew with _ | ⟨d0, ds⟩
            · simp at hne2
            · rw [List.takeWhile_cons]
              have hd0 : isDigitChar d0 = true := by
                rw [List.all_eq_true] at hdig
                simpa using hdig d0 (List.mem_cons_self _ _)
              have : d0 ≠ ']' := (digit_facts hd0).2.1
              simp [this]
          rw [if_neg (by rw [hrun]; omega)]
          exact hostAlt2_append hne hcolon hpo
      · -- host of length at least two starting with an open bracket
        have hc2 : c2 ≠ ':' := hcolon c2 (by simp)
        have hsub : ∀ c ∈ h2, c ≠ ':' := by
          intro c hc
          exact hcolon c (by simp [hc])
        rw [show ('[' :: c2 :: h2) ++ pp = '[' :: c2 :: (h2 ++ pp) by simp,
          hostPort_lbracket]
        rcases hdwh2 : h2.dropWhile (fun x => x = ']') with _ | ⟨d0, drest⟩
        · -- the closing-bracket run swallows all of h2
          have htwh2 : h2.takeWhile (fun x => x = ']') = h2 := by
            have := List.takeWhile_append_dropWhile (p := fun x => decide (x = ']')) (l := h2)
            rw [hdwh2] at this
            simpa using this
          have htw2 : (h2 ++ pp).takeWhile (fun x => x = ']') = h2 := by
            rw [takeWhile_append_all _ (fun c hc => by
              have := (mem_takeWhile (htwh2 ▸ hc)).2
              simpa using this), htwpp, List.append_nil]
          have hdw2 : (h2 ++ pp).dropWhile (fun x => x = ']') = pp := by
            rw [dropWhile_append_all _ (fun c hc => by
              have := (mem_takeWhile (htwh2 ▸ hc)).2
              simpa using this), hdwpp]
          by_cases hlen2 : 2 ≤ h2.length
          · rw [if_pos (by rw [htw2]; exact hlen2), hdw2, hpo, htw2]
          · rw [if_neg (by rw [htw2]; exact hlen2)]
            exact hostAlt2_append hne hcolon hpo
        · -- the closing-bracket run stops inside h2
          have hd0 : (d0 = ']') = False := by
            have := dropWhile_head_false hdwh2
            simpa using this
          have hd0c : d0 ≠ ':' := hsub d0 (mem_dropWhile (hdwh2 ▸ List.mem_cons_self _ _))
          have hsplit : h2 = h2.takeWhile (fun x => x = ']') ++ (d0 :: drest) := by
            conv_lhs => rw [← List.takeWhile_append_dropWhile
              (p := fun x => decide (x = ']')) (l := h2)]
            rw [hdwh2]
          have htwrun : ∀ c ∈ h2.takeWhile (fun x => x = ']'), (fun x => decide (x = ']')) c = true :=
            fun c hc => (mem_takeWhile hc).2
          have htw2 : (h2 ++ pp).takeWhile (fun x => x = ']') =
              h2.takeWhile (fun x => x = ']') := by
            conv_lhs => rw [hsplit]
            rw [List.append_assoc, takeWhile_append_all _ htwrun, List.cons_append,
              List.takeWhile_cons]
            simp [hd0]
          have hdw2 : (h2 ++ pp).dropWhile (fun x => x = ']') = d0 :: (drest ++ pp) := by
            conv_lhs => rw [hsplit]
            rw [List.append_assoc, dropWhile_append_all _ htwrun, List.cons_append,
              List.dropWhile_cons]
            simp [hd0]
          by_cases hlen2 : 2 ≤ (h2.takeWhile (fun x => x = ']')).length
          · rw [if_pos (by rw [htw2]; exact hlen2), hdw2, portOpt_cons,
              if_neg (by simp [hd0c])]
            exact hostAlt2_append hne hcolon hpo
          · rw [if_neg (by rw [htw2]; exact hlen2)]
            exact hostAlt2_append hne hcolon hpo
    · rcases h1 with _ | ⟨c2, h2⟩
      · rcases portOpt_inv hpo with ⟨rfl, rfl⟩ | ⟨rfl, hne2, hlen, hdig⟩
        · rw [show [h0] ++ ([] : Str) = [h0] by simp, hostPort_single]
          exact hostAlt2_append hne hcolon hpo
        · rw [show [h0] ++ (':' :: pnew) = h0 :: ':' :: pnew by simp,
            hostPort_not_lbracket _ _ h0b]
          exact hostAlt2_append hne hcolon hpo
      · rw [show (h0 :: c2 :: h2) ++ pp = h0 :: c2 :: (h2 ++ pp) by simp,
          hostPort_not_lbracket _ _ h0b]
        exact hostAlt2_append hne hcolon hpo

/-- Round trip through the full host-and-port suffix. -/
theorem hostPort_roundtrip {r h p pp pnew : Str}
    (hr : hostPort r = some (h, p)) (hpo : portOpt pp = some pnew) :
    hostPort (h ++ pp) = some (h, pnew) := by
  rcases r with _ | ⟨a, t⟩
  · rw [hostPort_nil] at hr
    exact hostAlt2_roundtrip hr hpo
  · rcases t with _ | ⟨b, t2⟩
    · rw [hostPort_single] at hr
      exact hostAlt2_roundtrip hr hpo
    · by_cases ha : a = '['
      · subst ha
        rw [hostPort_lbracket] at hr
        by_cases hm : 2 ≤ (t2.takeWhile (fun x => x = ']')).length
        · rw [if_pos hm] at hr
          rcases hpo2 : portOpt (t2.dropWhile (fun x => x = ']')) with _ | p2
          · rw [hpo2] at hr
            exact hostAlt2_roundtrip hr hpo
          · rw [hpo2] at hr
            cases hr
            -- host comes from the bracket alternative
            obtain ⟨htwpp, hdwpp, _, _⟩ := portOpt_tw_dw hpo
            have htwrun : ∀ c ∈ t2.takeWhile (fun x => x = ']'),
                (fun x => decide (x = ']')) c = true :=
              fun c hc => (mem_takeWhile hc).2
            rw [show ('[' :: b :: t2.takeWhile (fun x => x = ']')) ++ pp =
              '[' :: b :: (t2.takeWhile (fun x => x = ']') ++ pp) by simp,
              hostPort_lbracket]
            have htw2 : (t2.takeWhile (fun x => x = ']') ++ pp).takeWhile
                (fun x => x = ']') = t2.takeWhile (fun x => x = ']') := by
              rw [takeWhile_append_all _ htwrun, htwpp, List.append_nil]
            have hdw2 : (t2.takeWhile (fun x => x = ']') ++ pp).dropWhile
                (fun x => x = ']') = pp := by
              rw [dropWhile_append_all _ htwrun, hdwpp]
            rw [if_pos (by rw [htw2]; exact hm), hdw2, hpo, htw2]
        · rw [if_neg hm] at hr
          exact hostAlt2_roundtrip hr hpo
      · rw [hostPort_not_lbracket _ _ ha] at hr
        exact hostAlt2_roundtrip hr hpo

/-! ## Inversion lemmas for the constructor -/

theorem schemeSplit_fst_facts (s : Str) :
    (schemeSplit s).1 = [] ∨
      ((schemeSplit s).1 ≠ [] ∧ ∀ c ∈ (schemeSplit s).1, isTopSpecial c = false) := by
  unfold schemeSplit
  split
  · split
    next hcond =>
      right
      refine ⟨hcond.2, fun c hc => ?_⟩
      have := (mem_takeWhile hc).2
      simpa using this
    next => left; rfl
  · left; rfl

theorem authoritySplit_cases (r1 : Str) :
    (∃ rest, r1 = '/' :: '/' :: rest ∧ authoritySplit r1 =
      (rest.takeWhile (fun c => !isAuthStop c), rest.dropWhile (fun c => !isAuthStop c))) ∨
    authoritySplit r1 = ([], r1) := by
  unfold authoritySplit
  split
  next rest => exact Or.inl ⟨rest, rfl, rfl⟩
  next => exact Or.inr rfl

theorem fragmentFinish_inv {sch a p q r4 : Str} {m : TopMatch}
    (h : fragmentFinish sch a p q r4 = some m) :
    m.scheme = sch ∧ m.authority = a ∧ m.path = p ∧ m.query = q ∧
      (∀ c ∈ m.fragment, isLineTerm c = false) := by
  unfold fragmentFinish at h
  split at h
  · cases h
    exact ⟨rfl, rfl, rfl, rfl, by simp⟩
  next f =>
    by_cases hany : f.any isLineTerm
    · rw [if_pos hany] at h
      cases h
    · rw [if_neg hany] at h
      cases h
      refine ⟨rfl, rfl, rfl, rfl, fun c hc => ?_⟩
      rw [Bool.not_eq_true, List.any_eq_false] at hany
      simpa using hany c hc
  · cases h

theorem parseTopLevel_facts {s : Str} {m : TopMatch} (h : parseTopLevel s = some m) :
    (∀ c ∈ m.scheme, isTopSpecial c = false) ∧
    (∀ c ∈ m.authority, isAuthStop c = false) ∧
    (∀ c ∈ m.path, isPathStop c = false) ∧
    (∀ c ∈ m.query, c ≠ '#') ∧
    (∀ c ∈ m.fragment, isLineTerm c = false) ∧
    (m.authority ≠ [] → (m.path = [] ∨ ∃ t, m.path = '/' :: t)) := by
  unfold parseTopLevel at h
  obtain ⟨hsch, hauth, hpath, hque, hfrag⟩ := fragmentFinish_inv h
  refine ⟨?_, ?_, ?_, ?_, hfrag, ?_⟩
  · rw [hsch]
    rcases schemeSplit_fst_facts s with he | ⟨_, hfacts⟩
    · rw [he]
      simp
    · exact hfacts
  · rw [hauth]
    rcases authoritySplit_cases (schemeSplit s).2 with ⟨rest, _, heq⟩ | heq
    · rw [heq]
      intro c hc
      have := (mem_takeWhile hc).2
      simpa using this
    · rw [heq]
      simp
  · rw [hpath]
    unfold pathSplit
    intro c hc
    have := (mem_takeWhile hc).2
    simpa using this
  · rw [hque]
    unfold querySplit
    split
    · intro c hc
      have := (mem_takeWhile hc).2
      simpa using this
    · simp
  · rw [hauth, hpath]
    intro hne
    rcases authoritySplit_cases (schemeSplit s).2 with ⟨rest, _, heq⟩ | heq
    · rw [heq]
      unfold pathSplit
      rcases hdw : rest.dropWhile (fun c => !isAuthStop c) with _ | ⟨c0, t0⟩
      · left
        rfl
      · have hstop : isAuthStop c0 = true := by
          have := dropWhile_head_false hdw
          simpa using this
        dsimp only
        rcases isAuthStop_iff.mp hstop with h47 | h63 | h35
        · right
          have hc0 : c0 = '/' := charToNatInj (by rw [h47]; rfl)
          subst hc0
          rw [List.takeWhile_cons]
          exact ⟨t0.takeWhile (fun c => !isPathStop c), by simp [isPathStop]⟩
        · left
          have hc0 : c0 = '?' := charToNatInj (by rw [h63]; rfl)
          subst hc0
          rw [List.takeWhile_cons]
          simp [isPathStop]
        · left
          have hc0 : c0 = '#' := charToNatInj (by rw [h35]; rfl)
          subst hc0
          rw [List.takeWhile_cons]
          simp [isPathStop]
    · rw [heq] at hne
      exact absurd rfl hne

theorem hostPort_sub {r h p : Str} (hr : hostPort r = some (h, p)) :
    h ≠ [] ∧ ∀ c ∈ h, c ∈ r := by
  have alt2case : ∀ r2 : Str, hostAlt2 r2 = some (h, p) → h ≠ [] ∧ ∀ c ∈ h, c ∈ r2 := by
    intro r2 hr2
    obtain ⟨hh, hne, _⟩ := hostAlt2_inv hr2
    exact ⟨hne, fun c hc => (mem_takeWhile (hh ▸ hc)).1⟩
  rcases r with _ | ⟨a, t⟩
  · rw [hostPort_nil] at hr
    exact alt2case _ hr
  · rcases t with _ | ⟨b, t2⟩
    · rw [hostPort_single] at hr
      exact alt2case _ hr
    · by_cases ha : a = '['
      · subst ha
        rw [hostPort_lbracket] at hr
        by_cases hm : 2 ≤ (t2.takeWhile (fun x => x = ']')).length
        · rw [if_pos hm] at hr
          rcases hpo2 : portOpt (t2.dropWhile (fun x => x = ']')) with _ | p2
          · rw [hpo2] at hr
            exact alt2case _ hr
          · rw [hpo2] at hr
            simp only [Option.some.injEq, Prod.mk.injEq] at hr
            obtain ⟨h1, _⟩ := hr
            refine ⟨by rw [← h1]; simp, fun c hc => ?_⟩
            rw [← h1] at hc
            rcases List.mem_cons.mp hc with rfl | hc
            · exact List.mem_cons_self _ _
            rcases List.mem_cons.mp hc with rfl | hc
            · exact List.mem_cons_of_mem _ (List.mem_cons_self _ _)
            · exact List.mem_cons_of_mem _ (List.mem_cons_of_mem _
                ((mem_takeWhile hc).1))
        · rw [if_neg hm] at hr
          exact alt2case _ hr
      · rw [hostPort_not_lbracket _ _ ha] at hr
        exact alt2case _ hr

theorem authParse_inv {a h p : Str} (hap : authParse a = some (h, p)) :
    (∃ r, hostPort r = some (h, p)) ∧ h ≠ [] ∧ ∀ c ∈ h, c ∈ a := by
  unfold authParse at hap
  by_cases hany : a.any (fun c => c = '@')
  · rw [if_pos hany] at hap
    rcases hp1 : hostPort (a.dropWhile (fun c => c ≠ '@')).tail with _ | hp0
    · rw [hp1] at hap
      obtain ⟨hne, hsub⟩ := hostPort_sub hap
      exact ⟨⟨a, hap⟩, hne, hsub⟩
    · rw [hp1] at hap
      cases hap
      obtain ⟨hne, hsub⟩ := hostPort_sub hp1
      refine ⟨⟨_, hp1⟩, hne, fun c hc => ?_⟩
      have := hsub c hc
      exact mem_dropWhile (List.mem_of_mem_tail this)
  · rw [if_neg hany] at hap
    obtain ⟨hne, hsub⟩ := hostPort_sub hap
    exact ⟨⟨a, hap⟩, hne, hsub⟩

theorem default_ports_bounds {s : Str} {d : Nat} (h : default_ports s = some d) :
    0 < d ∧ d < 65536 := by
  unfold default_ports at h
  split_ifs at h <;> cases h <;> norm_num

theorem buildHostPort_ok_inv {sch a : Str} {hp : Str × Nat}
    (h : buildHostPort sch a = .ok hp) :
    (a = [] ∧ hp = ([], 0)) ∨
    (a ≠ [] ∧ ∃ pstr, authParse a = some (hp.1, pstr) ∧ hp.2 < 65536) := by
  unfold buildHostPort at h
  by_cases hae : a = []
  · rw [if_pos hae] at h
    cases h
    exact Or.inl ⟨hae, rfl⟩
  · rw [if_neg hae] at h
    right
    split at h
    · cases h
    · rename_i h0 pstr heq
      by_cases hps : pstr = []
      · rw [if_pos hps] at h
        split at h
        · rename_i d hd
          cases h
          exact ⟨hae, pstr, heq, (default_ports_bounds hd).2⟩
        · cases h
          exact ⟨hae, pstr, heq, by norm_num⟩
      · rw [if_neg hps] at h
        rw [if_neg (by
          have := Nat.mod_lt (fromDecimal pstr) (show 0 < 65536 by norm_num)
          omega)] at h
        cases h
        exact ⟨hae, pstr, heq, Nat.mod_lt _ (by norm_num)⟩

/-! ## The round-trip core -/

theorem roundtrip_core (us uh : Str) (up : Nat) (upa uq uf : Str)
    (hslow : lowerStr us = us)
    (hsch_ne : us ≠ [])
    (hsch : ∀ c ∈ us, isTopSpecial c = false)
    (hat : ∀ c ∈ uh, c ≠ '@')
    (hhost : ∀ c ∈ uh, isAuthStop c = false)
    (hpath0 : ∃ t, upa = '/' :: t)
    (hpath : ∀ c ∈ upa, isPathStop c = false)
    (hq : ∀ c ∈ uq, c ≠ '#')
    (hf : ∀ c ∈ uf, isLineTerm c = false)
    (hport : up < 65536)
    (hhp0 : uh = [] → up = 0)
    (hhorig : uh ≠ [] → ∃ r p, hostPort r = some (uh, p)) :
    ∃ v, parse (to_string ⟨us, uh, up, upa, uq, uf⟩) = some v ∧
      to_string v = to_string ⟨us, uh, up, upa, uq, uf⟩ := by
  obtain ⟨pt, rfl⟩ := hpath0
  have hppchars := portPart_char_facts ⟨us, uh, up, '/' :: pt, uq, uf⟩
  have hpo := portOpt_portPart ⟨us, uh, up, '/' :: pt, uq, uf⟩ hport
  dsimp only at hppchars hpo
  have hts : to_string ⟨us, uh, up, '/' :: pt, uq, uf⟩ =
      us ++ str "://" ++ uh ++ portPart ⟨us, uh, up, '/' :: pt, uq, uf⟩ ++ ('/' :: pt) ++
      (if uq ≠ [] then '?' :: uq else []) ++ (if uf ≠ [] then '#' :: uf else []) := rfl
  have hpt : parseTopLevel (to_string ⟨us, uh, up, '/' :: pt, uq, uf⟩) =
      some ⟨us, uh ++ portPart ⟨us, uh, up, '/' :: pt, uq, uf⟩, '/' :: pt, uq, uf⟩ := by
    rw [hts]
    exact parseTopLevel_reconstruct us uh (portPart ⟨us, uh, up, '/' :: pt, uq, uf⟩)
      ('/' :: pt) uq uf hsch_ne hsch hhost (fun c hc => (hppchars c hc).1)
      ⟨pt, rfl⟩ hpath hq hf
  by_cases hhe : uh = []
  · subst hhe
    have hp0 : up = 0 := hhp0 rfl
    subst hp0
    have hppnil : portPart ⟨us, [], 0, '/' :: pt, uq, uf⟩ = [] := by
      rw [portPart_eq]
      simp
    rw [hppnil] at hpt
    refine ⟨⟨us, [], 0, '/' :: pt, uq, uf⟩, ?_, rfl⟩
    unfold parse urlImpl
    rw [hpt]
    dsimp only
    unfold buildHostPort
    rw [if_pos (by simp)]
    rw [hslow]
    simp [Except.toOption]
  · obtain ⟨r, p, hr⟩ := hhorig hhe
    have hne2 : uh ++ portPart ⟨us, uh, up, '/' :: pt, uq, uf⟩ ≠ [] := by
      intro hcontra
      exact hhe (List.append_eq_nil.mp hcontra).1
    have hany : (uh ++ portPart ⟨us, uh, up, '/' :: pt, uq, uf⟩).any
        (fun c => c = '@') = false := by
      rw [List.any_eq_false]
      intro c hc
      rcases List.mem_append.mp hc with hc | hc
      · simp [hat c hc]
      · simp [(hppchars c hc).2.1]
    by_cases hcond : up ≠ 0 ∧ default_ports us ≠ some up
    · rw [if_pos hcond] at hpo
      have hhp := hostPort_roundtrip hr hpo
      have hap : authParse (uh ++ portPart ⟨us, uh, up, '/' :: pt, uq, uf⟩) =
          some (uh, toDecimal up) := by
        unfold authParse
        rw [hany]
        simp only [Bool.false_eq_true, if_false]
        exact hhp
      have hbuild : buildHostPort (lowerStr us)
          (uh ++ portPart ⟨us, uh, up, '/' :: pt, uq, uf⟩) = .ok (uh, up) := by
        unfold buildHostPort
        rw [if_neg hne2, hap]
        dsimp only
        rw [if_neg (toDecimal_ne_nil up), fromDecimal_toDecimal,
          Nat.mod_eq_of_lt hport, if_neg (by omega)]
      refine ⟨⟨us, uh, up, '/' :: pt, uq, uf⟩, ?_, rfl⟩
      unfold parse urlImpl
      rw [hpt]
      dsimp only
      rw [hbuild, hslow]
      simp [Except.toOption]
    · rw [if_neg hcond] at hpo
      have hhp := hostPort_roundtrip hr hpo
      have hap : authParse (uh ++ portPart ⟨us, uh, up, '/' :: pt, uq, uf⟩) =
          some (uh, []) := by
        unfold authParse
        rw [hany]
        simp only [Bool.false_eq_true, if_false]
        exact hhp
      push_neg at hcond
      rcases hd : default_ports us with _ | d
      · have hup0 : up = 0 := by
          by_cases hup : up = 0
          · exact hup
          · exact absurd hd (by rw [hcond hup]; simp)
        subst hup0
        have hbuild : buildHostPort (lowerStr us)
            (uh ++ portPart ⟨us, uh, 0, '/' :: pt, uq, uf⟩) = .ok (uh, 0) := by
          unfold buildHostPort
          rw [if_neg hne2, hap]
          dsimp only
          rw [if_pos rfl, hslow, hd]
        refine ⟨⟨us, uh, 0, '/' :: pt, uq, uf⟩, ?_, rfl⟩
        unfold parse urlImpl
        rw [hpt]
        dsimp only
        rw [hbuild, hslow]
        simp [Except.toOption]
      · have hbuild : buildHostPort (lowerStr us)
            (uh ++ portPart ⟨us, uh, up, '/' :: pt, uq, uf⟩) = .ok (uh, d) := by
          unfold buildHostPort
          rw [if_neg hne2, hap]
          dsimp only
          rw [if_pos rfl, hslow, hd]
        refine ⟨⟨us, uh, d, '/' :: pt, uq, uf⟩, ?_, ?_⟩
        · unfold parse urlImpl
          rw [hpt]
          dsimp only
          rw [hbuild, hslow]
          simp [Except.toOption]
        · by_cases hup : up = 0
          · subst hup
            show to_string ⟨us, uh, d, '/' :: pt, uq, uf⟩ = _
            unfold to_string
            rw [portPart_eq, portPart_eq]
            dsimp only
            rw [hd]
            simp
          · have : default_ports us = some up := hcond hup
            rw [hd] at this
            injection this with hdup
            rw [hdup]

/-- Claim C1 counterexample.  The one-letter input parses (empty scheme, empty
host, the letter as path), but its serialization starts with the three
separator characters, which the next parse folds entirely into the path, so the
second serialization gains another separator prefix: canonicalization is not
idempotent as claimed. -/
theorem c1_roundtrip_counterexample :
    (parse (str "a")).map to_string = some (str "://a") ∧
    (parse (str "://a")).map to_string = some (str "://://a") ∧
    str "://://a" ≠ str "://a" := by decide

/-- Claim C1 as amended: round-trip stability holds for every parsed URL whose
scheme is nonempty and whose host contains no at sign, provided that when the
host is empty the path starts with a slash; then the serialization parses again
and serializes to the same string. -/
theorem c1_roundtrip_amended (s : Str) (u : URLRec)
    (hp : parse s = some u)
    (hsch_ne : u.scheme ≠ [])
    (hat : ∀ c ∈ u.host, c ≠ '@')
    (hpathroot : u.host = [] → ∃ t, u.path = '/' :: t) :
    ∃ v, parse (to_string u) = some v ∧ to_string v = to_string u := by
  have himpl : urlImpl s = .ok u := by
    unfold parse at hp
    rcases h : urlImpl s with e | u2
    · rw [h] at hp
      simp [Except.toOption] at hp
    · rw [h] at hp
      simp only [Except.toOption] at hp
      cases hp
      rfl
  unfold urlImpl at himpl
  split at himpl
  · cases himpl
  · rename_i m hm
    obtain ⟨fsch, fauth, fpath, fque, ffrag, fpriv⟩ := parseTopLevel_facts hm
    split at himpl
    · cases himpl
    · rename_i host port hb
      cases himpl
      dsimp only at hsch_ne hat hpathroot
      have hsch2 : ∀ c ∈ lowerStr m.scheme, isTopSpecial c = false := by
        intro c hc
        obtain ⟨c0, hc0, rfl⟩ := List.mem_map.mp hc
        rw [tolower_isTopSpecial]
        exact fsch c0 hc0
      have hpath2 : ∀ c ∈ (if m.path = [] then ['/'] else m.path),
          isPathStop c = false := by
        by_cases hmp : m.path = []
        · rw [if_pos hmp]
          intro c hc
          rcases List.mem_singleton.mp hc with rfl
          rfl
        · rw [if_neg hmp]
          exact fpath
      rcases buildHostPort_ok_inv hb with ⟨hanil, hhpduo⟩ | ⟨hane, pstr, hap2, hplt⟩
      · have hh0 : host = [] := congrArg Prod.fst hhpduo
        have hp0 : port = 0 := congrArg Prod.snd hhpduo
        subst hh0
        subst hp0
        exact roundtrip_core (lowerStr m.scheme) [] 0
          (if m.path = [] then ['/'] else m.path) m.query m.fragment
          (lowerStr_idem m.scheme) hsch_ne hsch2 hat (by simp)
          (hpathroot rfl) hpath2 fque ffrag (by norm_num)
          (fun _ => rfl) (fun habs => absurd rfl habs)
      · obtain ⟨hex, hhne, hsubchars⟩ := authParse_inv hap2
        obtain ⟨r0, hr0⟩ := hex
        have hpath0 : ∃ t, (if m.path = [] then ['/'] else m.path) = '/' :: t := by
          rcases fpriv hane with hnil | ⟨t, ht⟩
          · exact ⟨[], by rw [if_pos hnil]⟩
          · exact ⟨t, by rw [if_neg (by rw [ht]; simp), ht]⟩
        exact roundtrip_core (lowerStr m.scheme) host port
          (if m.path = [] then ['/'] else m.path) m.query m.fragment
          (lowerStr_idem m.scheme) hsch_ne hsch2 hat
          (fun c hc => fauth c (hsubchars c hc))
          hpath0 hpath2 fque ffrag hplt
          (fun habs => absurd habs hhne) (fun _ => ⟨r0, pstr, hr0⟩)

/-- Witness for the amended C1 at a concrete nontrivial URL with an explicit
nondefault port, query and fragment. -/
theorem c1_roundtrip_amended_witness :
    ∃ v, parse (to_string ⟨str "http", str "a", 1, str "/p", str "q", str "f"⟩) = some v ∧
      to_string v = to_string ⟨str "http", str "a", 1, str "/p", str "q", str "f"⟩ :=
  c1_roundtrip_amended (str "http://a:1/p?q#f")
    ⟨str "http", str "a", 1, str "/p", str "q", str "f"⟩
    (by decide) (by decide) (by decide) (fun h => absurd h (by decide))

end Seedlib
